import Mathlib

/-!
Verification development for the kiba key-value server.

Shallow embedding of the request-processing pipeline of `src/bin.rs` and
the `HashStore` of `src/store.rs`:

* `Token`, `Request`, `Response`, `ParserError` mirror the Rust enums/structs.
* `parse_tokens` mirrors the parser, with the index accesses `tokens[1]`,
  `tokens[2]` realized by matching on the tail after the length guard.
* `tokenize` mirrors the tokenizer: UTF-8 decoding of the byte buffer
  (the Rust `unwrap` of `std::str::from_utf8` is modelled as `Option`,
  `none` standing for the fatal panic of the handling task), a split on
  whitespace/NUL, a filter dropping empty fragments, and keyword matching
  on the uppercased fragment.
* `HashStore` is modelled as an association list with the first binding for
  a key authoritative; `HashMap::insert` / `HashMap::get` become
  `insertAssoc` / `lookupAssoc`.
* `exec_request` mirrors the store actor's request execution; the `unwrap`
  of the store result in the `Get` arm is modelled as `Option` again.
* `runActor` mirrors the store actor's serial receive loop, the channel
  abstracted as the arrival-ordered list of requests.
-/

set_option autoImplicit false

namespace Kiba

/-- Mirrors Rust `enum Token { Ping, Get, Set, Operand(String) }`. -/
inductive Token where
  | Ping : Token
  | Get : Token
  | Set : Token
  | Operand : String → Token
  deriving DecidableEq, Repr

/-- Mirrors Rust `enum Request { Ping, Get{key}, Set{key,val}, NoOp, Invalid{error} }`. -/
inductive Request where
  | Ping : Request
  | Get : String → Request
  | Set : String → String → Request
  | NoOp : Request
  | Invalid : String → Request
  deriving DecidableEq, Repr

/-- Mirrors Rust `struct Response { body: String }`. -/
structure Response where
  body : String
  deriving DecidableEq, Repr

/-- Mirrors Rust `struct ParserError(String)`. -/
structure ParserError where
  err : String
  deriving DecidableEq, Repr

/-- Decidable equality on `Except`, for evaluating the embedding at
concrete inputs. -/
instance {e a : Type} [DecidableEq e] [DecidableEq a] : DecidableEq (Except e a) := fun x y =>
  match x, y with
  | Except.ok u, Except.ok w =>
    if h : u = w then Decidable.isTrue (by rw [h]) else Decidable.isFalse (by simp [h])
  | Except.error u, Except.error w =>
    if h : u = w then Decidable.isTrue (by rw [h]) else Decidable.isFalse (by simp [h])
  | Except.ok _, Except.error _ => Decidable.isFalse (by simp)
  | Except.error _, Except.ok _ => Decidable.isFalse (by simp)

/-- Mirrors `parse_tokens` of `src/bin.rs` (lines 37–88).  `argc` is the token
count; the accesses `tokens[1]` / `tokens[2]`, guarded in the source by the
`argc` checks, are realized by matching on the tail. -/
def parse_tokens (tokens : List Token) : Except ParserError Request :=
  match tokens with
  | [] => Except.ok Request.NoOp
  | op :: rest =>
    match op with
    | Token.Ping =>
      if rest.length + 1 ≠ 1 then
        Except.error ⟨"Ping op expected no operands, got " ++ toString rest.length⟩
      else
        Except.ok Request.Ping
    | Token.Get =>
      if rest.length + 1 ≠ 2 then
        Except.error ⟨"Get op expected exactly 1 operand, got " ++ toString rest.length⟩
      else
        match rest with
        | Token.Operand k :: _ => Except.ok (Request.Get k)
        | _ => Except.error ⟨"Get operands cannot be op types"⟩
    | Token.Set =>
      if rest.length + 1 ≠ 3 then
        Except.error ⟨"Set op expected 2 operands, got " ++ toString rest.length⟩
      else
        match rest with
        | Token.Operand k :: rest2 =>
          match rest2 with
          | Token.Operand v :: _ => Except.ok (Request.Set k v)
          | _ => Except.error ⟨"Set operands cannot be op types"⟩
        | _ => Except.error ⟨"Set operands cannot be op types"⟩
    | Token.Operand _ => Except.error ⟨"Invalid op token"⟩

/-- First-match association-list lookup; mirrors `HashMap::get` semantics on
the association-list model of the map. -/
def lookupAssoc {K V : Type} [DecidableEq K] : List (K × V) → K → Option V
  | [], _ => none
  | (k', v') :: t, k => if k = k' then some v' else lookupAssoc t k

/-- Association-list insert returning the previous binding; mirrors
`HashMap::insert` semantics (replace the binding, return the old value). -/
def insertAssoc {K V : Type} [DecidableEq K] : List (K × V) → K → V → Option V × List (K × V)
  | [], k, v => (none, [(k, v)])
  | (k', v') :: t, k, v =>
    if k = k' then (some v', (k, v) :: t)
    else
      let r := insertAssoc t k v
      (r.1, (k', v') :: r.2)

/-- Mirrors Rust `struct HashStore<K, V> { store: HashMap<K, V> }`, the map
modelled as an association list with at most one binding per key relied on
only through `lookupAssoc`/`insertAssoc`. -/
structure HashStore (K V : Type) where
  store : List (K × V)
  deriving DecidableEq, Repr

/-- Mirrors `Store::new` for `HashStore` (`src/store.rs` lines 23–27). -/
def HashStore.new {K V : Type} : HashStore K V := ⟨[]⟩

/-- Mirrors `HashStore::get` (`src/store.rs` lines 29–35): match on the map
lookup, wrap both branches in `Ok`. -/
def HashStore.get {K V : Type} [DecidableEq K] (s : HashStore K V) (key : K) :
    Except String (Option V) :=
  match lookupAssoc s.store key with
  | some val => Except.ok (some val)
  | none => Except.ok none

/-- Mirrors `HashStore::set` (`src/store.rs` lines 37–43): match on the map
insert, wrap both branches in `Ok`; the mutated map is returned alongside. -/
def HashStore.set {K V : Type} [DecidableEq K] (s : HashStore K V) (key : K) (val : V) :
    Except String (Option V) × HashStore K V :=
  let r := insertAssoc s.store key val
  match r.1 with
  | some v => (Except.ok (some v), ⟨r.2⟩)
  | none => (Except.ok none, ⟨r.2⟩)

/-- Mirrors Rust `char::is_whitespace`: the Unicode White_Space property,
listed by code point. -/
def rustIsWhitespace (c : Char) : Bool :=
  let n := c.toNat
  (0x9 ≤ n && n ≤ 0xD) || n = 0x20 || n = 0x85 || n = 0xA0 || n = 0x1680 ||
    (0x2000 ≤ n && n ≤ 0x200A) || n = 0x2028 || n = 0x2029 || n = 0x202F ||
    n = 0x205F || n = 0x3000

/-- The split predicate of `tokenize` (`src/bin.rs` line 94):
`c.is_whitespace() || c == '\u{0}'`. -/
def isSep (c : Char) : Bool :=
  rustIsWhitespace c || c.toNat = 0

/-- Per-character effect of Rust `str::to_uppercase` as far as the keyword
comparison can observe it: ASCII lowercase maps up, and the two code points
whose Unicode uppercase is a single ASCII letter that occurs in a keyword
(U+0131 dotless i → I, U+017F long s → S) are mapped.  Every other code
point is kept: its true uppercase is never an ASCII keyword letter (the
multi-character expansions such as ß → SS contain no keyword-completing
pair either), so the whole-fragment comparison against `PING`/`GET`/`SET`
— the only use of the uppercased text — is unchanged, and the emitted
`Operand` carries the original fragment in any case. -/
def rustCharToUpper (c : Char) : Char :=
  if 0x61 ≤ c.toNat && c.toNat ≤ 0x7A then Char.ofNat (c.toNat - 0x20)
  else if c.toNat = 0x131 then Char.ofNat 0x49
  else if c.toNat = 0x17F then Char.ofNat 0x53
  else c

/-- Mirrors Rust `str::split(pred)`: the list of fragments between separator
characters, empty fragments included (a separator at either end or two
adjacent separators contribute empty fragments, exactly as in Rust). -/
def splitAll : List Char → List (List Char)
  | [] => [[]]
  | c :: cs =>
    if isSep c then [] :: splitAll cs
    else
      match splitAll cs with
      | g :: gs => (c :: g) :: gs
      | [] => [[c]]

/-- The per-fragment step of the `tokenize` loop (`src/bin.rs` lines 97–104):
match the uppercased fragment against the keywords, otherwise emit an
`Operand` with the fragment's original casing. -/
def chunkToToken (chunk : List Char) : Token :=
  let up := chunk.map rustCharToUpper
  if up = "PING".toList then Token.Ping
  else if up = "GET".toList then Token.Get
  else if up = "SET".toList then Token.Set
  else Token.Operand (String.mk chunk)

/-- The text-level part of `tokenize` (`src/bin.rs` lines 93–105): split on
whitespace/NUL, drop empty fragments, map each remaining fragment to its
token. -/
def tokenizeText (text : List Char) : List Token :=
  ((splitAll text).filter (fun s => !s.isEmpty)).map chunkToToken

/-- Whether a fragment case-insensitively equals one of the keywords
`PING`/`GET`/`SET` (uppercased comparison, as the tokenizer performs it). -/
def isKeywordWord (s : String) : Bool :=
  let up := s.toList.map rustCharToUpper
  up = "PING".toList || up = "GET".toList || up = "SET".toList

/-- Whether a byte is a UTF-8 continuation byte (`0x80..=0xBF`). -/
def isCont (b : Nat) : Bool :=
  0x80 ≤ b && b ≤ 0xBF

/-- UTF-8 decoding of a byte list, mirroring the validation performed by
Rust `std::str::from_utf8`: rejects overlong encodings, surrogates and
code points above U+10FFFF; `none` is the `Err` case. -/
def utf8Decode : List Nat → Option (List Char)
  | [] => some []
  | b :: rest =>
    if b ≤ 0x7F then
      (utf8Decode rest).map (fun cs => Char.ofNat b :: cs)
    else if 0xC2 ≤ b && b ≤ 0xDF then
      match rest with
      | b1 :: rest1 =>
        if isCont b1 then
          (utf8Decode rest1).map
            (fun cs => Char.ofNat ((b - 0xC0) * 0x40 + (b1 - 0x80)) :: cs)
        else none
      | [] => none
    else if 0xE0 ≤ b && b ≤ 0xEF then
      match rest with
      | b1 :: b2 :: rest2 =>
        let okB1 : Bool :=
          if b = 0xE0 then 0xA0 ≤ b1 && b1 ≤ 0xBF
          else if b = 0xED then 0x80 ≤ b1 && b1 ≤ 0x9F
          else isCont b1
        if okB1 && isCont b2 then
          (utf8Decode rest2).map
            (fun cs =>
              Char.ofNat ((b - 0xE0) * 0x1000 + (b1 - 0x80) * 0x40 + (b2 - 0x80)) :: cs)
        else none
      | _ => none
    else if 0xF0 ≤ b && b ≤ 0xF4 then
      match rest with
      | b1 :: b2 :: b3 :: rest3 =>
        let okB1 : Bool :=
          if b = 0xF0 then 0x90 ≤ b1 && b1 ≤ 0xBF
          else if b = 0xF4 then 0x80 ≤ b1 && b1 ≤ 0x8F
          else isCont b1
        if okB1 && isCont b2 && isCont b3 then
          (utf8Decode rest3).map
            (fun cs =>
              Char.ofNat
                ((b - 0xF0) * 0x40000 + (b1 - 0x80) * 0x1000 +
                  (b2 - 0x80) * 0x40 + (b3 - 0x80)) :: cs)
        else none
      | _ => none
    else none

/-- Mirrors `tokenize` of `src/bin.rs` (lines 90–106): decode the bytes as
UTF-8 — the source `unwrap`s the decode result, so a decode failure is the
fatal `none` — then split, filter and map at the text level. -/
def tokenize (bytes : List Nat) : Option (List Token) :=
  (utf8Decode bytes).map tokenizeText

/-- Modelled from the spec: "split on any whitespace character or the NUL
padding byte; drop empty fragments" read as the list of maximal runs of
non-separator characters, computed by a direct accumulator scan.  Stated
against the source's split-then-filter pipeline in the tokenizer theorem. -/
def maximalRunsAux : List Char → List Char → List (List Char)
  | [], acc => if acc.isEmpty then [] else [acc.reverse]
  | c :: cs, acc =>
    if isSep c then
      if acc.isEmpty then maximalRunsAux cs [] else acc.reverse :: maximalRunsAux cs []
    else maximalRunsAux cs (c :: acc)

/-- The maximal non-separator runs of a text, in order. -/
def maximalRuns (text : List Char) : List (List Char) :=
  maximalRunsAux text []

/-- Mirrors `exec_request` of `src/bin.rs` (lines 115–151).  The source
`unwrap`s the store's `Result` in the `Get` arm; the (unreachable) panic on
an `Err` is modelled by `none`. -/
def exec_request (req : Request) (store : HashStore String String) :
    Option (Response × HashStore String String) :=
  match req with
  | Request.Ping => some (⟨"PONG"⟩, store)
  | Request.Get key =>
    match store.get key with
    | Except.ok (some val) => some (⟨"\"" ++ val ++ "\""⟩, store)
    | Except.ok none => some (⟨"(nil)"⟩, store)
    | Except.error _ => none
  | Request.Set key val =>
    let r := store.set key val
    some (⟨"OK"⟩, r.2)
  | Request.NoOp => some (⟨String.mk [Char.ofNat 0]⟩, store)
  | Request.Invalid error => some (⟨"ERROR: " ++ error⟩, store)

/-- Mirrors the store actor's serial loop in `main` (`src/bin.rs` lines
162–171): receive the next message in channel arrival order, execute it
against the store, emit exactly one response for it, continue. -/
def runActor : List Request → HashStore String String →
    Option (List Response × HashStore String String)
  | [], s => some ([], s)
  | r :: rs, s =>
    match exec_request r s with
    | some (resp, s') =>
      match runActor rs s' with
      | some (resps, s2) => some (resp :: resps, s2)
      | none => none
    | none => none

/-! ### Parser characterization -/

/-- Whether a token is an `Operand`. -/
def isOperandTok : Token → Bool
  | Token.Operand _ => true
  | _ => false

/-- Exhaustive characterization of the parser's `Ok` results. -/
lemma parse_tokens_ok_iff (ts : List Token) (r : Request) :
    parse_tokens ts = Except.ok r ↔
      (ts = [] ∧ r = Request.NoOp)
      ∨ (ts = [Token.Ping] ∧ r = Request.Ping)
      ∨ (∃ k, ts = [Token.Get, Token.Operand k] ∧ r = Request.Get k)
      ∨ (∃ k v, ts = [Token.Set, Token.Operand k, Token.Operand v] ∧ r = Request.Set k v) := by
  rcases ts with _ | ⟨op, rest⟩
  · simp [parse_tokens]; exact eq_comm
  · cases op with
    | Ping =>
      rcases rest with _ | ⟨x, xs⟩
      · simp [parse_tokens]; exact eq_comm
      · simp [parse_tokens]
    | Get =>
      rcases rest with _ | ⟨x, xs⟩
      · simp [parse_tokens]
      · rcases xs with _ | ⟨y, ys⟩
        · cases x <;> (simp [parse_tokens, and_assoc]; try exact eq_comm)
        · simp [parse_tokens]
    | Set =>
      rcases rest with _ | ⟨x, xs⟩
      · simp [parse_tokens]
      · rcases xs with _ | ⟨y, ys⟩
        · simp [parse_tokens]
        · rcases ys with _ | ⟨z, zs⟩
          · cases x <;> cases y <;> (simp [parse_tokens, and_assoc]; try exact eq_comm)
          · simp [parse_tokens]
    | Operand s => simp [parse_tokens]

/-- Exhaustive characterization of the parser's error results and messages. -/
lemma parse_tokens_error_iff (ts : List Token) (e : ParserError) :
    parse_tokens ts = Except.error e ↔
      (∃ rest, ts = Token.Ping :: rest ∧ rest ≠ []
        ∧ e = ⟨"Ping op expected no operands, got " ++ toString rest.length⟩)
      ∨ (∃ rest, ts = Token.Get :: rest ∧ rest.length ≠ 1
        ∧ e = ⟨"Get op expected exactly 1 operand, got " ++ toString rest.length⟩)
      ∨ (∃ t, ts = [Token.Get, t] ∧ isOperandTok t = false
        ∧ e = ⟨"Get operands cannot be op types"⟩)
      ∨ (∃ rest, ts = Token.Set :: rest ∧ rest.length ≠ 2
        ∧ e = ⟨"Set op expected 2 operands, got " ++ toString rest.length⟩)
      ∨ (∃ t1 t2, ts = [Token.Set, t1, t2]
        ∧ (isOperandTok t1 = false ∨ isOperandTok t2 = false)
        ∧ e = ⟨"Set operands cannot be op types"⟩)
      ∨ (∃ s rest, ts = Token.Operand s :: rest ∧ e = ⟨"Invalid op token"⟩) := by
  rcases ts with _ | ⟨op, rest⟩
  · simp [parse_tokens]
  · cases op with
    | Ping =>
      rcases rest with _ | ⟨x, xs⟩
      · simp [parse_tokens]
      · simp [parse_tokens]; try exact eq_comm
    | Get =>
      rcases rest with _ | ⟨x, xs⟩
      · simp [parse_tokens]; try exact eq_comm
      · rcases xs with _ | ⟨y, ys⟩
        · cases x <;> (simp [parse_tokens, isOperandTok, and_assoc]; try exact eq_comm)
        · simp [parse_tokens]; try exact eq_comm
    | Set =>
      rcases rest with _ | ⟨x, xs⟩
      · simp [parse_tokens]; try exact eq_comm
      · rcases xs with _ | ⟨y, ys⟩
        · simp [parse_tokens]; try exact eq_comm
        · rcases ys with _ | ⟨z, zs⟩
          · cases x <;> cases y <;> (simp [parse_tokens, isOperandTok, and_assoc]; try exact eq_comm)
          · simp [parse_tokens]; try exact eq_comm
    | Operand s => simp [parse_tokens]; try exact eq_comm

/-- C2: parse_tokens maps exactly these token sequences to Ok: the empty
sequence to NoOp; [Ping] to Request.Ping; [Get, Operand k] to Request.Get k;
[Set, Operand k, Operand v] to Request.Set k v; every other token sequence
is rejected. -/
theorem parse_tokens_ok_spec (ts : List Token) (r : Request) :
    parse_tokens ts = Except.ok r ↔
      (ts = [] ∧ r = Request.NoOp)
      ∨ (ts = [Token.Ping] ∧ r = Request.Ping)
      ∨ (∃ k, ts = [Token.Get, Token.Operand k] ∧ r = Request.Get k)
      ∨ (∃ k v, ts = [Token.Set, Token.Operand k, Token.Operand v] ∧ r = Request.Set k v) :=
  parse_tokens_ok_iff ts r

/-- C3: parse_tokens errors exactly on the non-empty malformed sequences,
with the specified message in each case: wrong Ping/Get/Set operand counts
report the count, a non-Operand operand of Get/Set reports the op-type
message, and a leading Operand reports "Invalid op token". -/
theorem parse_tokens_error_spec (ts : List Token) (e : ParserError) :
    parse_tokens ts = Except.error e ↔
      (∃ rest, ts = Token.Ping :: rest ∧ rest ≠ []
        ∧ e = ⟨"Ping op expected no operands, got " ++ toString rest.length⟩)
      ∨ (∃ rest, ts = Token.Get :: rest ∧ rest.length ≠ 1
        ∧ e = ⟨"Get op expected exactly 1 operand, got " ++ toString rest.length⟩)
      ∨ (∃ t, ts = [Token.Get, t] ∧ isOperandTok t = false
        ∧ e = ⟨"Get operands cannot be op types"⟩)
      ∨ (∃ rest, ts = Token.Set :: rest ∧ rest.length ≠ 2
        ∧ e = ⟨"Set op expected 2 operands, got " ++ toString rest.length⟩)
      ∨ (∃ t1 t2, ts = [Token.Set, t1, t2]
        ∧ (isOperandTok t1 = false ∨ isOperandTok t2 = false)
        ∧ e = ⟨"Set operands cannot be op types"⟩)
      ∨ (∃ s rest, ts = Token.Operand s :: rest ∧ e = ⟨"Invalid op token"⟩) :=
  parse_tokens_error_iff ts e

/-- C7: on every finite token sequence the parser returns a value (the
guarded indexing never escapes the embedding into partiality), and an Ok
result is never Request.Invalid. -/
theorem parse_tokens_total_not_invalid (ts : List Token) :
    (∃ r, parse_tokens ts = Except.ok r ∧ ∀ e, r ≠ Request.Invalid e)
    ∨ ∃ e, parse_tokens ts = Except.error e := by
  cases h : parse_tokens ts with
  | ok r =>
    left
    refine ⟨r, rfl, ?_⟩
    rcases (parse_tokens_ok_iff ts r).mp h with ⟨_, hr⟩ | ⟨_, hr⟩ | ⟨k, _, hr⟩ | ⟨k, v, _, hr⟩ <;>
      subst hr <;> intro e he <;> exact Request.noConfusion he
  | error e => exact Or.inr ⟨e, rfl⟩

/-! ### Store lemmas -/

lemma insertAssoc_fst {K V : Type} [DecidableEq K] (l : List (K × V)) (k : K) (v : V) :
    (insertAssoc l k v).1 = lookupAssoc l k := by
  induction l with
  | nil => simp [insertAssoc, lookupAssoc]
  | cons p t ih =>
    obtain ⟨k', v'⟩ := p
    by_cases h : k = k' <;> simp [insertAssoc, lookupAssoc, h, ih]

lemma lookupAssoc_insertAssoc_self {K V : Type} [DecidableEq K]
    (l : List (K × V)) (k : K) (v : V) :
    lookupAssoc (insertAssoc l k v).2 k = some v := by
  induction l with
  | nil => simp [insertAssoc, lookupAssoc]
  | cons p t ih =>
    obtain ⟨k', v'⟩ := p
    by_cases h : k = k' <;> simp [insertAssoc, lookupAssoc, h, ih]

lemma lookupAssoc_insertAssoc_ne {K V : Type} [DecidableEq K]
    (l : List (K × V)) (k k' : K) (v : V) (h : k' ≠ k) :
    lookupAssoc (insertAssoc l k v).2 k' = lookupAssoc l k' := by
  induction l with
  | nil => simp [insertAssoc, lookupAssoc, h]
  | cons p t ih =>
    obtain ⟨k'', v''⟩ := p
    by_cases hk : k = k''
    · subst hk
      simp [insertAssoc, lookupAssoc, h]
    · by_cases hk' : k' = k'' <;> simp [insertAssoc, lookupAssoc, hk, hk', ih]

lemma HashStore.get_eq {K V : Type} [DecidableEq K] (s : HashStore K V) (key : K) :
    s.get key = Except.ok (lookupAssoc s.store key) := by
  cases h : lookupAssoc s.store key <;> simp [HashStore.get, h]

lemma HashStore.set_eq {K V : Type} [DecidableEq K] (s : HashStore K V) (key : K) (val : V) :
    s.set key val
      = (Except.ok (insertAssoc s.store key val).1, ⟨(insertAssoc s.store key val).2⟩) := by
  cases h : (insertAssoc s.store key val).1 <;> simp [HashStore.set, h]

/-- C5: set returns Ok of the previous binding (what get returned just
before) and never an error; after set k v, get k returns Ok (some v); after
set k v1 then set k v2, the second set returns Ok (some v1) and get k
returns Ok (some v2); get never errors (and, taking the store only as an
argument, never changes it). -/
theorem hashStore_set_get_spec (s : HashStore String String) (k v v1 v2 : String) :
    (s.set k v).1 = s.get k
    ∧ (∃ p, s.get k = Except.ok p)
    ∧ (s.set k v).2.get k = Except.ok (some v)
    ∧ ((s.set k v1).2.set k v2).1 = Except.ok (some v1)
    ∧ ((s.set k v1).2.set k v2).2.get k = Except.ok (some v2) := by
  refine ⟨?_, ⟨lookupAssoc s.store k, HashStore.get_eq s k⟩, ?_, ?_, ?_⟩ <;>
    simp [HashStore.get_eq, HashStore.set_eq, insertAssoc_fst,
      lookupAssoc_insertAssoc_self]

/-- C1: exec_request maps each Request variant to exactly the specified
Response body: Ping to "PONG"; Get k to the stored value in double quotes
when present and "(nil)" when absent; Set to "OK"; NoOp to a single NUL
byte; Invalid e to "ERROR: " followed by e. -/
theorem exec_request_response_spec (s : HashStore String String) (k v val e : String) :
    exec_request Request.Ping s = some (⟨"PONG"⟩, s)
    ∧ (s.get k = Except.ok (some val) →
        exec_request (Request.Get k) s = some (⟨"\"" ++ val ++ "\""⟩, s))
    ∧ (s.get k = Except.ok none →
        exec_request (Request.Get k) s = some (⟨"(nil)"⟩, s))
    ∧ (∃ s', exec_request (Request.Set k v) s = some (⟨"OK"⟩, s'))
    ∧ exec_request Request.NoOp s = some (⟨String.mk [Char.ofNat 0]⟩, s)
    ∧ exec_request (Request.Invalid e) s = some (⟨"ERROR: " ++ e⟩, s) := by
  refine ⟨rfl, ?_, ?_, ⟨(s.set k v).2, rfl⟩, rfl, rfl⟩ <;>
    · intro h
      simp [exec_request, h]

/-- Witness for C1: both Get branches at concrete stores. -/
theorem exec_request_response_spec_witness :
    exec_request (Request.Get "a") ⟨[("a", "b")]⟩ = some (⟨"\"" ++ "b" ++ "\""⟩, ⟨[("a", "b")]⟩)
    ∧ exec_request (Request.Get "a") ⟨[]⟩ = some (⟨"(nil)"⟩, ⟨[]⟩) :=
  ⟨(exec_request_response_spec ⟨[("a", "b")]⟩ "a" "v" "b" "e").2.1 rfl,
   (exec_request_response_spec ⟨[]⟩ "a" "v" "b" "e").2.2.1 rfl⟩

/-- C6: every request other than Set leaves the store untouched:
exec_request returns the argument store itself alongside the response. -/
theorem exec_request_frame (s : HashStore String String) (r : Request)
    (h : ∀ k v, r ≠ Request.Set k v) :
    ∃ resp, exec_request r s = some (resp, s) := by
  cases r with
  | Ping => exact ⟨⟨"PONG"⟩, rfl⟩
  | NoOp => exact ⟨⟨String.mk [Char.ofNat 0]⟩, rfl⟩
  | Invalid e => exact ⟨⟨"ERROR: " ++ e⟩, rfl⟩
  | Get k =>
    cases hl : lookupAssoc s.store k with
    | none => exact ⟨⟨"(nil)"⟩, by simp [exec_request, HashStore.get_eq, hl]⟩
    | some val => exact ⟨⟨"\"" ++ val ++ "\""⟩, by simp [exec_request, HashStore.get_eq, hl]⟩
  | Set k v => exact absurd rfl (h k v)

/-- Witness for C6: a Ping against a concrete store. -/
theorem exec_request_frame_witness :
    ∃ resp, exec_request Request.Ping ⟨[("a", "b")]⟩ = some (resp, ⟨[("a", "b")]⟩) :=
  exec_request_frame ⟨[("a", "b")]⟩ Request.Ping (fun _ _ h => Request.noConfusion h)

/-! ### Tokenizer lemmas -/

lemma splitAll_ne_nil (text : List Char) : splitAll text ≠ [] := by
  cases text with
  | nil => simp [splitAll]
  | cons c cs =>
    by_cases h : isSep c
    · simp [splitAll, h]
    · simp only [splitAll, h]
      cases splitAll cs <;> simp

lemma modifyHead_nil_append (l : List (List Char)) :
    l.modifyHead (fun g => ([] : List Char) ++ g) = l := by
  cases l <;> simp

lemma modifyHead_id_fun (l : List (List Char)) :
    l.modifyHead (fun g => g) = l := by
  cases l <;> simp

lemma maximalRunsAux_eq (text : List Char) (acc : List Char) :
    maximalRunsAux text acc
      = ((splitAll text).modifyHead (fun g => acc.reverse ++ g)).filter
          (fun s => !s.isEmpty) := by
  induction text generalizing acc with
  | nil => cases acc <;> simp [maximalRunsAux, splitAll]
  | cons c cs ih =>
    by_cases h : isSep c
    · cases acc with
      | nil => simp [maximalRunsAux, splitAll, h, ih, modifyHead_nil_append, modifyHead_id_fun]
      | cons a as => simp [maximalRunsAux, splitAll, h, ih, modifyHead_nil_append, modifyHead_id_fun]
    · cases hs : splitAll cs with
      | nil => exact absurd hs (splitAll_ne_nil cs)
      | cons g gs =>
        have := ih (c :: acc)
        rw [hs] at this
        simp only [maximalRunsAux, h, if_neg, Bool.false_eq_true, ite_false, splitAll, hs]
        simp only [List.modifyHead, List.reverse_cons, List.append_assoc] at this ⊢
        simpa using this

lemma maximalRuns_eq_filter (text : List Char) :
    maximalRuns text = (splitAll text).filter (fun s => !s.isEmpty) := by
  rw [maximalRuns, maximalRunsAux_eq]
  simp [modifyHead_nil_append, modifyHead_id_fun]

lemma tokenizeText_eq_maximalRuns (text : List Char) :
    tokenizeText text = (maximalRuns text).map chunkToToken := by
  rw [tokenizeText, maximalRuns_eq_filter]

lemma tokenizeText_all_sep (text : List Char) (h : ∀ c ∈ text, isSep c = true) :
    tokenizeText text = [] := by
  induction text with
  | nil => rfl
  | cons c cs ih =>
    have hc : isSep c = true := h c (List.mem_cons_self c cs)
    have ihh := ih (fun c' hc' => h c' (List.mem_cons_of_mem c hc'))
    simpa [tokenizeText, splitAll, hc] using ihh

/-- C4: for a byte buffer that decodes as text, tokenize yields exactly the
tokens of the text; the retained fragments are exactly the maximal runs of
non-whitespace/non-NUL characters, in order; an all-separator (or empty)
text yields no tokens; and a fragment that does not case-insensitively
equal a keyword becomes an Operand carrying its original casing. -/
theorem tokenize_spec (bytes : List Nat) (text chunkC : List Char) :
    (utf8Decode bytes = some text → tokenize bytes = some (tokenizeText text))
    ∧ tokenizeText text = (maximalRuns text).map chunkToToken
    ∧ ((∀ c ∈ text, isSep c = true) → tokenizeText text = [])
    ∧ (isKeywordWord (String.mk chunkC) = false →
        chunkToToken chunkC = Token.Operand (String.mk chunkC)) := by
  refine ⟨fun h => by simp [tokenize, h], tokenizeText_eq_maximalRuns text,
    tokenizeText_all_sep text, fun h => ?_⟩
  simp only [isKeywordWord, String.toList, Bool.or_eq_false_iff,
    decide_eq_false_iff_not] at h
  rcases h with ⟨⟨h1, h2⟩, h3⟩
  simp [chunkToToken, h1, h2, h3]

/-- Witness for C4: a space byte decodes and tokenizes to nothing, and a
non-keyword fragment becomes an Operand. -/
theorem tokenize_spec_witness :
    tokenize [0x20] = some (tokenizeText [Char.ofNat 0x20])
    ∧ tokenizeText [Char.ofNat 0x20] = []
    ∧ chunkToToken [Char.ofNat 0x61] = Token.Operand (String.mk [Char.ofNat 0x61]) :=
  ⟨(tokenize_spec [0x20] [Char.ofNat 0x20] [Char.ofNat 0x61]).1 (by decide),
   (tokenize_spec [0x20] [Char.ofNat 0x20] [Char.ofNat 0x61]).2.2.1 (by decide),
   (tokenize_spec [0x20] [Char.ofNat 0x20] [Char.ofNat 0x61]).2.2.2 (by decide)⟩

/-- C8: tokenize returns a token list for every byte buffer that is valid
UTF-8; on invalid UTF-8 it returns no token list and no protocol error —
the decode failure is the fatal outcome for the handling task. -/
theorem tokenize_utf8_spec (bytes : List Nat) :
    ((∃ text, utf8Decode bytes = some text) → ∃ toks, tokenize bytes = some toks)
    ∧ (utf8Decode bytes = none → tokenize bytes = none) := by
  constructor
  · rintro ⟨text, h⟩
    exact ⟨tokenizeText text, by simp [tokenize, h]⟩
  · intro h
    simp [tokenize, h]

/-- Witness for C8: a valid ASCII byte tokenizes; the invalid byte 0xFF
does not. -/
theorem tokenize_utf8_spec_witness :
    (∃ toks, tokenize [0x50] = some toks) ∧ tokenize [0xFF] = none :=
  ⟨(tokenize_utf8_spec [0x50]).1 ⟨[Char.ofNat 0x50], by decide⟩,
   (tokenize_utf8_spec [0xFF]).2 (by decide)⟩

/-! ### Store actor lemmas -/

lemma exec_request_total (r : Request) (s : HashStore String String) :
    ∃ resp s', exec_request r s = some (resp, s') := by
  cases r with
  | Ping => exact ⟨_, _, rfl⟩
  | NoOp => exact ⟨_, _, rfl⟩
  | Invalid e => exact ⟨_, _, rfl⟩
  | Set k v => exact ⟨_, _, rfl⟩
  | Get k =>
    cases hl : lookupAssoc s.store k with
    | none => exact ⟨⟨"(nil)"⟩, s, by simp [exec_request, HashStore.get_eq, hl]⟩
    | some val => exact ⟨⟨"\"" ++ val ++ "\""⟩, s, by simp [exec_request, HashStore.get_eq, hl]⟩

lemma runActor_total (reqs : List Request) (s : HashStore String String) :
    ∃ resps s', runActor reqs s = some (resps, s') ∧ resps.length = reqs.length := by
  induction reqs generalizing s with
  | nil => exact ⟨[], s, rfl, rfl⟩
  | cons r rs ih =>
    obtain ⟨resp, s1, hr⟩ := exec_request_total r s
    obtain ⟨resps, s2, hrun, hlen⟩ := ih s1
    exact ⟨resp :: resps, s2, by simp [runActor, hr, hrun], by simp [hlen]⟩

lemma exec_request_lookup_preserve (r : Request) (s s' : HashStore String String)
    (resp : Response) (k : String) (hk : ∀ v, r ≠ Request.Set k v)
    (h : exec_request r s = some (resp, s')) :
    lookupAssoc s'.store k = lookupAssoc s.store k := by
  cases r with
  | Ping =>
    simp only [exec_request, Option.some.injEq, Prod.mk.injEq] at h
    rw [← h.2]
  | NoOp =>
    simp only [exec_request, Option.some.injEq, Prod.mk.injEq] at h
    rw [← h.2]
  | Invalid e =>
    simp only [exec_request, Option.some.injEq, Prod.mk.injEq] at h
    rw [← h.2]
  | Get k' =>
    cases hl : lookupAssoc s.store k' <;>
      · simp only [exec_request, HashStore.get_eq, hl, Option.some.injEq, Prod.mk.injEq] at h
        rw [← h.2]
  | Set k' v =>
    have hne : k ≠ k' := by
      intro he
      exact hk v (by rw [he])
    simp only [exec_request, HashStore.set_eq, Option.some.injEq, Prod.mk.injEq] at h
    rw [← h.2]
    exact lookupAssoc_insertAssoc_ne s.store k' k v hne

lemma runActor_lookup_preserve (reqs : List Request) (s s' : HashStore String String)
    (resps : List Response) (k : String)
    (hk : ∀ r ∈ reqs, ∀ v, r ≠ Request.Set k v)
    (h : runActor reqs s = some (resps, s')) :
    lookupAssoc s'.store k = lookupAssoc s.store k := by
  induction reqs generalizing s resps with
  | nil =>
    simp only [runActor, Option.some.injEq, Prod.mk.injEq] at h
    rw [← h.2]
  | cons r rs ih =>
    obtain ⟨resp, s1, hr⟩ := exec_request_total r s
    obtain ⟨resps1, s2, hrun, _⟩ := runActor_total rs s1
    simp only [runActor, hr, hrun, Option.some.injEq, Prod.mk.injEq] at h
    obtain ⟨hresps, hs⟩ := h
    rw [hs] at hrun
    have p1 := exec_request_lookup_preserve r s s1 resp k
      (hk r (List.mem_cons_self r rs)) hr
    have p2 := ih s1 resps1 (fun r' hr' => hk r' (List.mem_cons_of_mem r hr')) hrun
    rw [p2, p1]

lemma runActor_append (xs ys : List Request) (s : HashStore String String) :
    runActor (xs ++ ys) s
      = (runActor xs s).bind
          (fun p => (runActor ys p.2).map (fun q => (p.1 ++ q.1, q.2))) := by
  induction xs generalizing s with
  | nil =>
    cases hys : runActor ys s with
    | none => simp [runActor, hys]
    | some q => simp [runActor, hys]
  | cons x xs ih =>
    cases hx : exec_request x s with
    | none => simp [runActor, hx]
    | some p =>
      obtain ⟨resp, s1⟩ := p
      cases hxs : runActor xs s1 with
      | none => simp [runActor, hx, ih, hxs]
      | some q =>
        obtain ⟨resps1, s2⟩ := q
        cases hys : runActor ys s2 with
        | none => simp [runActor, hx, ih, hxs, hys]
        | some q2 => simp [runActor, hx, ih, hxs, hys]

/-- C9: the store actor, executing the arrival-ordered message sequence
strictly one at a time, emits exactly one response per accepted message;
and a client's Get k issued after its last Set k v observes exactly v, no
matter what requests on other keys are interleaved in between. -/
theorem store_actor_serialization (pre mid : List Request) (s : HashStore String String)
    (k v : String) (hmid : ∀ r ∈ mid, ∀ v', r ≠ Request.Set k v') :
    (∀ (reqs : List Request) (s0 : HashStore String String),
        ∃ resps s1, runActor reqs s0 = some (resps, s1) ∧ resps.length = reqs.length)
    ∧ ∃ resps s1,
        runActor (pre ++ Request.Set k v :: (mid ++ [Request.Get k])) s = some (resps, s1)
        ∧ resps.getLast? = some ⟨"\"" ++ v ++ "\""⟩ := by
  refine ⟨fun reqs s0 => runActor_total reqs s0, ?_⟩
  obtain ⟨rp, s1, hpre, _⟩ := runActor_total pre s
  have hset : exec_request (Request.Set k v) s1 = some (⟨"OK"⟩, (s1.set k v).2) := rfl
  have hlook2 : lookupAssoc ((s1.set k v).2).store k = some v := by
    simp [HashStore.set_eq, lookupAssoc_insertAssoc_self]
  obtain ⟨rm, s3, hmidrun, _⟩ := runActor_total mid (s1.set k v).2
  have hlook3 : lookupAssoc s3.store k = some v := by
    rw [runActor_lookup_preserve mid (s1.set k v).2 s3 rm k hmid hmidrun, hlook2]
  have hget : exec_request (Request.Get k) s3 = some (⟨"\"" ++ v ++ "\""⟩, s3) := by
    simp [exec_request, HashStore.get_eq, hlook3]
  have hGetRun : runActor [Request.Get k] s3 = some ([⟨"\"" ++ v ++ "\""⟩], s3) := by
    simp [runActor, hget]
  have hmid2 : runActor (mid ++ [Request.Get k]) (s1.set k v).2
      = some (rm ++ [⟨"\"" ++ v ++ "\""⟩], s3) := by
    rw [runActor_append, hmidrun]
    simp [hGetRun]
  have hys : runActor (Request.Set k v :: (mid ++ [Request.Get k])) s1
      = some (⟨"OK"⟩ :: (rm ++ [⟨"\"" ++ v ++ "\""⟩]), s3) := by
    simp [runActor, hset, hmid2]
  have htot : runActor (pre ++ (Request.Set k v :: (mid ++ [Request.Get k]))) s
      = some (rp ++ (⟨"OK"⟩ :: (rm ++ [⟨"\"" ++ v ++ "\""⟩])), s3) := by
    rw [runActor_append, hpre]
    simp [hys]
  refine ⟨_, s3, htot, ?_⟩
  have hsplit : rp ++ (Response.mk ("OK") :: (rm ++ [Response.mk ("\"" ++ v ++ "\"")]))
      = (rp ++ Response.mk ("OK") :: rm) ++ [Response.mk ("\"" ++ v ++ "\"")] := by
    simp
  rw [hsplit]
  exact List.getLast?_concat _

/-- Witness for C9: one client sets key "a" to "1", another sets key "b"
in between, the first reads "a" back and observes "1". -/
theorem store_actor_serialization_witness :
    (∀ r ∈ [Request.Set "b" "x"], ∀ v', r ≠ Request.Set "a" v')
    ∧ ((∀ (reqs : List Request) (s0 : HashStore String String),
          ∃ resps s1, runActor reqs s0 = some (resps, s1) ∧ resps.length = reqs.length)
      ∧ ∃ resps s1,
          runActor ([] ++ Request.Set "a" "1" :: ([Request.Set "b" "x"] ++ [Request.Get "a"]))
            HashStore.new = some (resps, s1)
          ∧ resps.getLast? = some ⟨"\"" ++ "1" ++ "\""⟩) := by
  have hmid : ∀ r ∈ [Request.Set "b" "x"], ∀ v', r ≠ Request.Set "a" v' := by
    intro r hr v' he
    rcases List.mem_singleton.mp hr with rfl
    injection he with h1 h2
    exact absurd h1 (by decide)
  exact ⟨hmid, store_actor_serialization [] [Request.Set "b" "x"] HashStore.new "a" "1" hmid⟩

/-! ### Keywords can never be operands -/

lemma chunkToToken_operand (chunk : List Char) (s : String)
    (h : chunkToToken chunk = Token.Operand s) :
    s = String.mk chunk ∧ isKeywordWord (String.mk chunk) = false := by
  by_cases h1 : chunk.map rustCharToUpper = "PING".toList
  · rw [chunkToToken] at h
    simp [h1] at h
  · by_cases h2 : chunk.map rustCharToUpper = "GET".toList
    · rw [chunkToToken] at h
      simp [h1, h2] at h
    · by_cases h3 : chunk.map rustCharToUpper = "SET".toList
      · rw [chunkToToken] at h
        simp [h1, h2, h3] at h
      · rw [chunkToToken] at h
        simp only [h1, h2, h3, if_false, Token.Operand.injEq] at h
        refine ⟨h.symm, ?_⟩
        simp only [isKeywordWord, String.toList, Bool.or_eq_false_iff,
          decide_eq_false_iff_not]
        exact ⟨⟨h1, h2⟩, h3⟩

lemma tokenizeText_operand_not_keyword (text : List Char) (s : String)
    (h : Token.Operand s ∈ tokenizeText text) : isKeywordWord s = false := by
  rw [tokenizeText] at h
  obtain ⟨chunk, hmem, hchunk⟩ := List.mem_map.mp h
  obtain ⟨hs, hkw⟩ := chunkToToken_operand chunk s hchunk
  rw [hs]
  exact hkw

/-- C10: a word that case-insensitively equals PING, GET or SET can never
be carried as a key or value: whenever parsing a tokenized buffer yields a
Get or Set request, its key and value are non-keyword words. -/
theorem keywords_never_stored (text : List Char) (req : Request)
    (h : parse_tokens (tokenizeText text) = Except.ok req) :
    (∀ k, req = Request.Get k → isKeywordWord k = false)
    ∧ (∀ k v, req = Request.Set k v → isKeywordWord k = false ∧ isKeywordWord v = false) := by
  have hch := (parse_tokens_ok_iff (tokenizeText text) req).mp h
  constructor
  · intro k hk
    subst hk
    rcases hch with ⟨_, h'⟩ | ⟨_, h'⟩ | ⟨k', hts, h'⟩ | ⟨k', v', hts, h'⟩
    · exact absurd h' (by simp)
    · exact absurd h' (by simp)
    · injection h' with he
      subst he
      exact tokenizeText_operand_not_keyword text k (by rw [hts]; simp)
    · exact absurd h' (by simp)
  · intro k v hkv
    subst hkv
    rcases hch with ⟨_, h'⟩ | ⟨_, h'⟩ | ⟨k', hts, h'⟩ | ⟨k', v', hts, h'⟩
    · exact absurd h' (by simp)
    · exact absurd h' (by simp)
    · exact absurd h' (by simp)
    · injection h' with he1 he2
      subst he1
      subst he2
      exact ⟨tokenizeText_operand_not_keyword text k (by rw [hts]; simp),
        tokenizeText_operand_not_keyword text v (by rw [hts]; simp)⟩

/-- Witness for C10: parsing the tokenization of "GET foo" yields Get "foo",
whose key is not a keyword word. -/
theorem keywords_never_stored_witness :
    parse_tokens (tokenizeText ("GET foo".toList)) = Except.ok (Request.Get "foo")
    ∧ ((∀ k, Request.Get "foo" = Request.Get k → isKeywordWord k = false)
      ∧ (∀ k v, Request.Get "foo" = Request.Set k v →
          isKeywordWord k = false ∧ isKeywordWord v = false)) := by
  have h : parse_tokens (tokenizeText ("GET foo".toList)) = Except.ok (Request.Get "foo") := by
    decide
  exact ⟨h, keywords_never_stored ("GET foo".toList) (Request.Get "foo") h⟩

end Kiba
